import Mathlib

/-!
Verification of the trn time-range library (range.go, operations.go).

Modelling choices of the shallow embedding:

- Instants (time.Time) are modelled as integers (nanoseconds since an epoch);
  the zero value of time.Time is the integer 0.  Durations (time.Duration) are
  integers as well, so Range.End = st + dur and time.Time.Sub is integer
  subtraction.  All comparisons (Before, After, Equal) become <, >, = on Int.
- A Go panic is modelled by an explicit result constructor (Option.none for
  Truncate, StratResult.panicked for Stratify and Split).
- The unbounded while-loop of Stratify is modelled with explicit fuel
  (stratifyLoop); RangeV.Stratify runs the loop with enough fuel for every
  terminating execution and maps fuel exhaustion to StratResult.diverged.
- Go sort.Slice is an unstable sort by the boundary instant; any order of
  boundaries with equal instants is a legitimate outcome.  The embedding fixes
  one deterministic refinement of it: a stable insertion sort by instant
  (sortBoundaries), which keeps the generation order inside groups of equal
  instants.
-/

/-- Range represents a time slot with its own start and end time boundaries
(Go struct Range {st time.Time; dur time.Duration}). -/
structure RangeV where
  st : Int
  dur : Int
deriving DecidableEq, Repr

/-- End returns the end time of the date range (Go Range.End). -/
def RangeV.End (r : RangeV) : Int := r.st + r.dur

/-- Empty reports whether the range is the canonical empty sentinel
(Go Range.Empty: st.IsZero() && dur == 0). -/
def RangeV.Empty (r : RangeV) : Bool := decide (r.st = 0 ∧ r.dur = 0)

/-- Contains returns true if the other date range is within this date range
(Go Range.Contains). -/
def RangeV.Contains (r other : RangeV) : Bool :=
  decide (r.st ≤ other.st) && decide (other.End ≤ r.End)

/-- Case 1 of Truncate's switch: r entirely (strictly) before bounds. -/
def RangeV.truncCase1 (r bounds : RangeV) : Bool :=
  decide (r.st < bounds.st) && decide (r.End < bounds.st)

/-- Case 2 of Truncate's switch: r entirely (strictly) after bounds. -/
def RangeV.truncCase2 (r bounds : RangeV) : Bool :=
  decide (bounds.End < r.st) && decide (bounds.End < r.End)

/-- Case 5 of Truncate's switch: r starts before bounds and ends inside it. -/
def RangeV.truncCase5 (r bounds : RangeV) : Bool :=
  decide (r.st < bounds.st) && decide (r.End < bounds.End)

/-- Case 6 of Truncate's switch: r starts inside bounds and ends after it. -/
def RangeV.truncCase6 (r bounds : RangeV) : Bool :=
  decide (bounds.st < r.st) && decide (bounds.End < r.End)

/-- Truncate returns the date range bounded to the bounds (Go Range.Truncate).
The six switch cases are tried in source order; the fall-through
panic("should never happen") is modelled as Option.none. -/
def RangeV.Truncate (r bounds : RangeV) : Option RangeV :=
  if r.truncCase1 bounds then some ⟨0, 0⟩
  else if r.truncCase2 bounds then some ⟨0, 0⟩
  else if r.Contains bounds then some bounds
  else if bounds.Contains r then some r
  else if r.truncCase5 bounds then some ⟨bounds.st, r.End - bounds.st⟩
  else if r.truncCase6 bounds then some ⟨r.st, bounds.End - r.st⟩
  else none

/-- Result of Stratify / Split: a normal value, a panic, or divergence of the
window-emission loop. -/
inductive StratResult where
  | ok (l : List RangeV)
  | panicked
  | diverged
deriving DecidableEq, Repr

/-- Fuel-indexed embedding of Stratify's while-loop
(for rangeEnd.Sub(rangeStart.Add(duration)) >= 0 { emit; advance }).
Running out of fuel while the guard still holds returns none. -/
def stratifyLoop (endT d i : Int) : Nat → Int → Option (List RangeV)
  | 0, start => if 0 ≤ endT - (start + d) then none else some []
  | fuel + 1, start =>
    if 0 ≤ endT - (start + d) then
      (stratifyLoop endT d i fuel (start + i)).map (fun l => ⟨start, d⟩ :: l)
    else some []

/-- Stratify the date range into smaller ranges with fixed duration and the
given interval between the starts of the resulting ranges (Go Range.Stratify).
The Go code panics when interval == 0 or duration == 0; the fuel given to the
loop is sufficient for every positive interval. -/
def RangeV.Stratify (r : RangeV) (duration interval : Int) : StratResult :=
  if interval = 0 ∨ duration = 0 then .panicked
  else
    match stratifyLoop r.End duration interval ((r.End - r.st - duration).toNat + 1) r.st with
    | some l => .ok l
    | none => .diverged

/-- Split the date range into smaller ranges, with fixed duration and with the
given interval between the end of one range and the start of the next
(Go Range.Split): panics on zero duration, then delegates to Stratify. -/
def RangeV.Split (r : RangeV) (duration interval : Int) : StratResult :=
  if duration = 0 then .panicked
  else r.Stratify duration (duration + interval)

/-- Boundary kind tag (Go boundaryType with boundaryStart / boundaryEnd). -/
inductive boundaryType where
  | boundaryStart
  | boundaryEnd
deriving DecidableEq, Repr

/-- A sweep boundary event (Go timeRangeBoundary {tm time.Time; typ boundaryType}). -/
structure timeRangeBoundary where
  tm : Int
  typ : boundaryType
deriving DecidableEq, Repr

/-- rangesToBoundaries expands each range into its start and end boundary, in
input order (Go rangesToBoundaries). -/
def rangesToBoundaries : List RangeV → List timeRangeBoundary
  | [] => []
  | r :: rest =>
    ⟨r.st, .boundaryStart⟩ :: ⟨r.End, .boundaryEnd⟩ :: rangesToBoundaries rest

/-- Insert a boundary into a list before the first element with an instant
greater than or equal to its own. -/
def insertB (b : timeRangeBoundary) : List timeRangeBoundary → List timeRangeBoundary
  | [] => [b]
  | c :: cs => if b.tm ≤ c.tm then b :: c :: cs else c :: insertB b cs

/-- Stable insertion sort of boundaries by instant: one deterministic
refinement of Go's unstable sort.Slice by tm. -/
def sortBoundaries : List timeRangeBoundary → List timeRangeBoundary
  | [] => []
  | b :: bs => insertB b (sortBoundaries bs)

/-- The boundary-sweep loop of MergeOverlappingRanges.  The Go loop walks the
sorted slice while at least two boundaries remain (it looks one element
ahead); after the loop the final decrement-and-emit step uses the instant of
the last boundary of the original slice, passed here as lastTm. -/
def sweepLoop (lastTm : Int) (rst : Int) (cnt : Int) :
    List timeRangeBoundary → List RangeV
  | b :: next :: rest =>
    if b.typ = boundaryType.boundaryStart then
      sweepLoop lastTm (if cnt = 0 then b.tm else rst) (cnt + 1) (next :: rest)
    else if b.tm = next.tm ∧ next.typ = boundaryType.boundaryStart then
      sweepLoop lastTm rst cnt rest
    else if cnt - 1 = 0 then
      ⟨rst, b.tm - rst⟩ :: sweepLoop lastTm rst (cnt - 1) (next :: rest)
    else
      sweepLoop lastTm rst (cnt - 1) (next :: rest)
  | _ => if cnt - 1 = 0 then [⟨rst, lastTm - rst⟩] else []

/-- MergeOverlappingRanges merges overlapping ranges into single ranges by a
sweep over the sorted boundary events (Go MergeOverlappingRanges). -/
def MergeOverlappingRanges (ranges : List RangeV) : List RangeV :=
  match sortBoundaries (rangesToBoundaries ranges) with
  | [] => []
  | b :: bs => sweepLoop ((bs.getLastD b).tm) 0 0 (b :: bs)

/-- The interior-gap loop of flipValidRanges: for every adjacent pair of
(already merged, sorted) ranges emit the gap between them. -/
def flipGaps : List RangeV → List RangeV
  | a :: b :: rest => ⟨a.End, b.st - a.End⟩ :: flipGaps (b :: rest)
  | _ => []

/-- flipValidRanges flips a sorted list of disjoint ranges within the period r
(Go Range.flipValidRanges).  The Go code indexes ranges[0], so it is only ever
called with a non-empty list; the empty case is given the vacuous value []. -/
def RangeV.flipValidRanges (r : RangeV) (ranges : List RangeV) : List RangeV :=
  match ranges with
  | [] => []
  | first :: rest =>
    (if r.st = first.st then [] else [⟨r.st, first.st - r.st⟩]) ++
      (flipGaps (first :: rest) ++
        (if r.End = (rest.getLastD first).End then []
         else [⟨(rest.getLastD first).End, r.End - (rest.getLastD first).End⟩]))

/-- FlipDateRanges within the given period (Go Range.FlipDateRanges):
normalizes the sub-ranges with MergeOverlappingRanges and flips the result. -/
def RangeV.FlipDateRanges (r : RangeV) (ranges : List RangeV) : List RangeV :=
  match ranges with
  | [] => [r]
  | _ :: _ => r.flipValidRanges (MergeOverlappingRanges ranges)

/-- A range covers an instant t iff st ≤ t < end (half-open interval of
instants, as in the glossary of the design). -/
def coversR (r : RangeV) (t : Int) : Prop := r.st ≤ t ∧ t < r.End

/-- A list of ranges covers an instant iff one of its members does. -/
def coversL (l : List RangeV) (t : Int) : Prop := ∃ r ∈ l, coversR r t

/-- SepChain lo l: every range of l has non-negative duration, starts at or
after lo, and ends strictly before the start of the next one (the shape of
MergeOverlappingRanges output). -/
def SepChain : Int → List RangeV → Prop
  | _, [] => True
  | lo, r :: rest => lo ≤ r.st ∧ 0 ≤ r.dur ∧ SepChain (r.End + 1) rest

/-- Bal cnt bs: reading bs left to right starting from cnt open ranges, the
open count never drops below zero at an end boundary and is exactly zero at
the end of the list. -/
def Bal : Int → List timeRangeBoundary → Prop
  | cnt, [] => cnt = 0
  | cnt, b :: rest =>
    match b.typ with
    | boundaryType.boundaryStart => Bal (cnt + 1) rest
    | boundaryType.boundaryEnd => 1 ≤ cnt ∧ Bal (cnt - 1) rest

/-- Number of start boundaries at instants at most t. -/
def cntS (bs : List timeRangeBoundary) (t : Int) : Nat :=
  bs.countP fun b => decide (b.typ = boundaryType.boundaryStart ∧ b.tm ≤ t)

/-- Number of end boundaries at instants at most t. -/
def cntE (bs : List timeRangeBoundary) (t : Int) : Nat :=
  bs.countP fun b => decide (b.typ = boundaryType.boundaryEnd ∧ b.tm ≤ t)

/-- Coverage depth at instant t seen from a sweep state with cnt ranges open. -/
def depthAt (cnt : Int) (bs : List timeRangeBoundary) (t : Int) : Int :=
  cnt + (cntS bs t : Int) - (cntE bs t : Int)

/-! ### Stratify loop: structure, termination, divergence -/

/-- A successful run of the window loop either emits nothing or emits the
window at the current cursor first. -/
theorem stratifyLoop_shape (endT d i : Int) :
    ∀ (fuel : Nat) (start : Int) (l : List RangeV),
      stratifyLoop endT d i fuel start = some l →
      l = [] ∨ ∃ tl, l = ⟨start, d⟩ :: tl := by
  intro fuel
  cases fuel with
  | zero =>
    intro start l h
    by_cases hc : 0 ≤ endT - (start + d) <;> simp [stratifyLoop, hc] at h
    exact Or.inl h
  | succ n =>
    intro start l h
    by_cases hc : 0 ≤ endT - (start + d)
    · simp [stratifyLoop, hc] at h
      obtain ⟨tl, _, htl⟩ := h
      exact Or.inr ⟨tl, htl.symm⟩
    · simp [stratifyLoop, hc] at h
      exact Or.inl h

/-- Every successful run of the window loop emits windows whose starts advance
by exactly the interval and whose durations are all the requested one. -/
theorem stratifyLoop_chain (endT d i : Int) :
    ∀ (fuel : Nat) (start : Int) (l : List RangeV),
      stratifyLoop endT d i fuel start = some l →
      l.Chain' (fun a b => b.st = a.st + i ∧ a.dur = d ∧ b.dur = d) := by
  intro fuel
  induction fuel with
  | zero =>
    intro start l h
    by_cases hc : 0 ≤ endT - (start + d) <;> simp [stratifyLoop, hc] at h
    simp [h]
  | succ n ih =>
    intro start l h
    by_cases hc : 0 ≤ endT - (start + d)
    · simp [stratifyLoop, hc] at h
      obtain ⟨tl, htl, hl⟩ := h
      subst hl
      rcases stratifyLoop_shape endT d i n (start + i) tl htl with h0 | ⟨tl2, htl2⟩
      · subst h0; simp
      · subst htl2
        exact List.chain'_cons.mpr ⟨⟨rfl, rfl, rfl⟩, ih (start + i) _ htl⟩
    · simp [stratifyLoop, hc] at h
      simp [h]

/-- If the loop guard fails at the cursor, no later window fits either
(positive interval). -/
theorem stratifyLoop_no_k (endT d i start : Int) (hi : 0 < i)
    (hc : ¬(0 ≤ endT - (start + d))) (k : ℕ) :
    ¬(start + (k : Int) * i + d ≤ endT) := by
  intro hle
  have hk : 0 ≤ (k : Int) * i := mul_nonneg (Int.natCast_nonneg k) (le_of_lt hi)
  linarith

/-- With a positive interval and enough fuel the window loop terminates, and
it emits exactly the windows of the requested duration whose end does not
exceed the range end. -/
theorem stratifyLoop_mem (endT d i : Int) (hi : 0 < i) :
    ∀ (fuel : Nat) (start : Int), endT - start - d < (fuel : Int) →
      ∃ l, stratifyLoop endT d i fuel start = some l ∧
        ∀ w : RangeV, w ∈ l ↔
          ∃ k : ℕ, w.st = start + k * i ∧ w.dur = d ∧ start + k * i + d ≤ endT := by
  intro fuel
  induction fuel with
  | zero =>
    intro start hfuel
    have hc : ¬(0 ≤ endT - (start + d)) := by push_cast at hfuel; omega
    refine ⟨[], by simp [stratifyLoop, hc], ?_⟩
    intro w
    simp only [List.not_mem_nil, false_iff, not_exists]
    rintro k ⟨_, _, hle⟩
    exact stratifyLoop_no_k endT d i start hi hc k hle
  | succ n ih =>
    intro start hfuel
    by_cases hc : 0 ≤ endT - (start + d)
    · have hstep : endT - (start + i) - d < (n : Int) := by push_cast at hfuel ⊢; omega
      obtain ⟨tl, htl, hmem⟩ := ih (start + i) hstep
      refine ⟨⟨start, d⟩ :: tl, by simp [stratifyLoop, hc, htl], ?_⟩
      intro w
      simp only [List.mem_cons, hmem]
      constructor
      · rintro (rfl | ⟨k, hst, hdur, hle⟩)
        · refine ⟨0, by simp, rfl, by simpa using by omega⟩
        · refine ⟨k + 1, ?_, hdur, ?_⟩
          · rw [hst]; push_cast; ring
          · have hcast : start + (↑(k + 1) : Int) * i = start + i + (k : Int) * i := by
              push_cast; ring
            rw [hcast]; exact hle
      · rintro ⟨k, hst, hdur, hle⟩
        cases k with
        | zero =>
          left
          cases w
          simp only [RangeV.mk.injEq]
          constructor
          · simpa using hst
          · exact hdur
        | succ m =>
          right
          refine ⟨m, ?_, hdur, ?_⟩
          · rw [hst]; push_cast; ring
          · have hcast : start + (↑(m + 1) : Int) * i = start + i + (m : Int) * i := by
              push_cast; ring
            rw [hcast] at hle; exact hle
    · refine ⟨[], by simp [stratifyLoop, hc], ?_⟩
      intro w
      simp only [List.not_mem_nil, false_iff, not_exists]
      rintro k ⟨_, _, hle⟩
      exact stratifyLoop_no_k endT d i start hi hc k hle

/-- A Stratify call that returns ok did run the loop to completion. -/
theorem stratify_ok_loop (r : RangeV) (d i : Int) (l : List RangeV)
    (h : r.Stratify d i = StratResult.ok l) :
    stratifyLoop r.End d i ((r.End - r.st - d).toNat + 1) r.st = some l := by
  by_cases hz : i = 0 ∨ d = 0
  · simp [RangeV.Stratify, hz] at h
  · simp only [RangeV.Stratify, if_neg hz] at h
    cases hm : stratifyLoop r.End d i ((r.End - r.st - d).toNat + 1) r.st with
    | none => rw [hm] at h; simp at h
    | some l' => rw [hm] at h; simp at h; rw [h]

/-- C5: for positive duration and interval, Stratify returns exactly the
windows of the given length starting at r.st + k * interval whose end does not
exceed r.End, in ascending order of start; no truncated trailing window is
produced. -/
theorem stratify_windows_exact (r : RangeV) (d i : Int) (hd : 0 < d) (hi : 0 < i) :
    ∃ l, r.Stratify d i = StratResult.ok l ∧
      (∀ w : RangeV, w ∈ l ↔
        ∃ k : ℕ, w.st = r.st + k * i ∧ w.dur = d ∧ r.st + k * i + d ≤ r.End) ∧
      l.Chain' (fun a b => a.st < b.st) := by
  have hz : ¬(i = 0 ∨ d = 0) := by omega
  have hfuel : r.End - r.st - d < (((r.End - r.st - d).toNat + 1 : ℕ) : Int) := by
    push_cast; omega
  obtain ⟨l, hl, hmem⟩ := stratifyLoop_mem r.End d i hi ((r.End - r.st - d).toNat + 1) r.st hfuel
  refine ⟨l, by simp only [RangeV.Stratify, if_neg hz, hl], hmem, ?_⟩
  have hch := stratifyLoop_chain r.End d i ((r.End - r.st - d).toNat + 1) r.st l hl
  exact hch.imp fun h => by omega

/-- Witness for stratify_windows_exact at a concrete range. -/
theorem stratify_windows_exact_w :
    ∃ l, (⟨100, 60⟩ : RangeV).Stratify 30 5 = StratResult.ok l ∧
      (∀ w : RangeV, w ∈ l ↔
        ∃ k : ℕ, w.st = (⟨100, 60⟩ : RangeV).st + k * 5 ∧ w.dur = 30 ∧
          (⟨100, 60⟩ : RangeV).st + k * 5 + 30 ≤ (⟨100, 60⟩ : RangeV).End) ∧
      l.Chain' (fun a b => a.st < b.st) :=
  stratify_windows_exact ⟨100, 60⟩ 30 5 (by norm_num) (by norm_num)

/-- C4 counterexample: a negative duration is not rejected by Stratify
(the Go code panics only on exactly zero duration or interval). -/
theorem stratify_negative_accepted :
    (⟨0, 10⟩ : RangeV).Stratify (-1) 1 ≠ StratResult.panicked ∧ (-1 : Int) ≤ 0 := by
  decide

/-- C4 amended: Stratify fails (panics) exactly when duration = 0 or
interval = 0; negative values pass the check. -/
theorem stratify_panics_iff_zero (r : RangeV) (d i : Int) :
    r.Stratify d i = StratResult.panicked ↔ (d = 0 ∨ i = 0) := by
  constructor
  · intro h
    by_contra hz
    push_neg at hz
    have hz' : ¬(i = 0 ∨ d = 0) := by tauto
    simp only [RangeV.Stratify, if_neg hz'] at h
    cases hm : stratifyLoop r.End d i ((r.End - r.st - d).toNat + 1) r.st <;>
      rw [hm] at h <;> simp at h
  · intro h
    have h' : i = 0 ∨ d = 0 := by tauto
    simp [RangeV.Stratify, h']

/-- C10: with positive duration and interval the window loop terminates and
Stratify returns a finite list; with a negative interval the loop guard stays
true forever, so no amount of fuel makes the loop finish. -/
theorem stratify_loop_termination :
    (∀ (r : RangeV) (d i : Int), 0 ≤ r.dur → 0 < d → 0 < i →
        ∃ l, r.Stratify d i = StratResult.ok l) ∧
    ((-1 : Int) < 0 ∧ ∀ fuel : Nat, stratifyLoop 10 1 (-1) fuel 0 = none) := by
  constructor
  · intro r d i _ hd hi
    have hz : ¬(i = 0 ∨ d = 0) := by omega
    have hfuel : r.End - r.st - d < (((r.End - r.st - d).toNat + 1 : ℕ) : Int) := by
      push_cast; omega
    obtain ⟨l, hl, _⟩ :=
      stratifyLoop_mem r.End d i hi ((r.End - r.st - d).toNat + 1) r.st hfuel
    exact ⟨l, by simp only [RangeV.Stratify, if_neg hz, hl]⟩
  · refine ⟨by norm_num, ?_⟩
    have key : ∀ (fuel : Nat) (start : Int), start ≤ 0 →
        stratifyLoop 10 1 (-1) fuel start = none := by
      intro fuel
      induction fuel with
      | zero =>
        intro start hs
        have hc : (0 : Int) ≤ 10 - (start + 1) := by omega
        simp [stratifyLoop, hc]
      | succ n ih =>
        intro start hs
        have hc : (0 : Int) ≤ 10 - (start + 1) := by omega
        simp [stratifyLoop, hc, ih (start + (-1)) (by omega)]
    intro fuel
    exact key fuel 0 le_rfl

/-- Witness for the terminating half of stratify_loop_termination. -/
theorem stratify_loop_termination_w :
    ∃ l, (⟨5, 17⟩ : RangeV).Stratify 4 3 = StratResult.ok l :=
  stratify_loop_termination.1 ⟨5, 17⟩ 4 3 (by norm_num) (by norm_num) (by norm_num)

/-- C7: Split with positive duration and non-negative interval is literally
Stratify with step duration + interval, and consecutive emitted windows are
separated by a gap of exactly the interval between end and next start. -/
theorem split_eq_stratify (r : RangeV) (d i : Int) (hd : 0 < d) (hi : 0 ≤ i) :
    r.Split d i = r.Stratify d (d + i) ∧
    ∀ l, r.Split d i = StratResult.ok l →
      l.Chain' (fun a b => b.st = a.End + i) := by
  have hd0 : ¬(d = 0) := by omega
  have hsplit : r.Split d i = r.Stratify d (d + i) := by simp [RangeV.Split, hd0]
  refine ⟨hsplit, ?_⟩
  intro l hok
  rw [hsplit] at hok
  have hl := stratify_ok_loop r d (d + i) l hok
  have hch := stratifyLoop_chain r.End d (d + i) ((r.End - r.st - d).toNat + 1) r.st l hl
  refine hch.imp fun a b h => ?_
  obtain ⟨h1, h2, _⟩ := h
  simp only [RangeV.End]
  omega

/-- Witness for split_eq_stratify at a concrete range. -/
theorem split_eq_stratify_w :
    (⟨100, 100⟩ : RangeV).Split 30 5 = (⟨100, 100⟩ : RangeV).Stratify 30 35 ∧
    ∀ l, (⟨100, 100⟩ : RangeV).Split 30 5 = StratResult.ok l →
      l.Chain' (fun a b => b.st = a.End + 5) :=
  split_eq_stratify ⟨100, 100⟩ 30 5 (by norm_num) (by norm_num)

/-! ### Truncate -/

/-- C8 amended: for every pair of ranges at least one of Truncate's six switch
cases matches, so the fall-through panic is unreachable (no hypotheses on the
durations are even needed). -/
theorem truncate_never_panics (r b : RangeV) : (r.Truncate b).isSome = true := by
  unfold RangeV.Truncate
  split_ifs with h1 h2 h3 h4 h5 h6 <;> try rfl
  exfalso
  simp only [RangeV.truncCase1, RangeV.truncCase2, RangeV.Contains, RangeV.truncCase5,
    RangeV.truncCase6, RangeV.End, Bool.and_eq_true, decide_eq_true_eq] at h1 h2 h3 h4 h5 h6
  omega

/-- C8 counterexample: the six cases are not mutually exclusive; for
disjoint ranges with non-negative durations both case 1 and case 5 match
simultaneously (the switch merely picks the first). -/
theorem truncate_cases_overlap :
    RangeV.truncCase1 ⟨0, 1⟩ ⟨5, 5⟩ = true ∧ RangeV.truncCase5 ⟨0, 1⟩ ⟨5, 5⟩ = true ∧
    (0 : Int) ≤ (⟨0, 1⟩ : RangeV).dur ∧ (0 : Int) ≤ (⟨5, 5⟩ : RangeV).dur := by
  decide

/-- C3 counterexample: ranges that merely touch (r ends exactly where bounds
starts) share no instant, yet Truncate returns the zero-length range at the
touching instant, not the empty sentinel with zero start. -/
theorem truncate_touch_not_sentinel :
    RangeV.Truncate ⟨0, 5⟩ ⟨5, 5⟩ = some ⟨5, 0⟩ ∧
    RangeV.End ⟨0, 5⟩ = (⟨5, 5⟩ : RangeV).st ∧
    RangeV.Truncate ⟨0, 5⟩ ⟨5, 5⟩ ≠ some ⟨0, 0⟩ := by
  decide

/-- C3 amended: for strictly separated ranges Truncate returns the empty
sentinel; when the ranges touch exactly at one instant it returns the
zero-duration range located at the touching instant instead. -/
theorem truncate_disjoint_sentinel (r b : RangeV) (hr : 0 ≤ r.dur) (hb : 0 ≤ b.dur) :
    ((r.End < b.st ∨ b.End < r.st) → r.Truncate b = some ⟨0, 0⟩) ∧
    (r.End = b.st → r.Truncate b = some ⟨b.st, 0⟩) ∧
    (r.st = b.End → r.Truncate b = some ⟨r.st, 0⟩) := by
  obtain ⟨rs, rd⟩ := r
  obtain ⟨bs, bd⟩ := b
  simp only [RangeV.End] at *
  unfold RangeV.Truncate
  simp only [RangeV.truncCase1, RangeV.truncCase2, RangeV.Contains, RangeV.truncCase5,
    RangeV.truncCase6, RangeV.End, Bool.and_eq_true, decide_eq_true_eq]
  refine ⟨?_, ?_, ?_⟩ <;> intro h <;> split_ifs with h1 h2 h3 h4 h5 h6 <;>
    simp_all [RangeV.mk.injEq] <;> omega

/-- Witness for truncate_disjoint_sentinel at concrete disjoint ranges. -/
theorem truncate_disjoint_sentinel_w :
    ((RangeV.End ⟨1, 2⟩ < (⟨10, 3⟩ : RangeV).st ∨ RangeV.End ⟨10, 3⟩ < (⟨1, 2⟩ : RangeV).st) →
      RangeV.Truncate ⟨1, 2⟩ ⟨10, 3⟩ = some ⟨0, 0⟩) ∧
    (RangeV.End ⟨1, 2⟩ = (⟨10, 3⟩ : RangeV).st →
      RangeV.Truncate ⟨1, 2⟩ ⟨10, 3⟩ = some ⟨(⟨10, 3⟩ : RangeV).st, 0⟩) ∧
    ((⟨1, 2⟩ : RangeV).st = RangeV.End ⟨10, 3⟩ →
      RangeV.Truncate ⟨1, 2⟩ ⟨10, 3⟩ = some ⟨(⟨1, 2⟩ : RangeV).st, 0⟩) :=
  truncate_disjoint_sentinel ⟨1, 2⟩ ⟨10, 3⟩ (by norm_num) (by norm_num)

/-! ### Boundary list infrastructure for the merge sweep -/

/-- Unfolding of sweepLoop on the empty list. -/
theorem sweepLoop_nil (lastTm rst cnt : Int) :
    sweepLoop lastTm rst cnt [] = if cnt - 1 = 0 then [⟨rst, lastTm - rst⟩] else [] := rfl

/-- Unfolding of sweepLoop on a single remaining boundary. -/
theorem sweepLoop_single (lastTm rst cnt : Int) (b : timeRangeBoundary) :
    sweepLoop lastTm rst cnt [b] = if cnt - 1 = 0 then [⟨rst, lastTm - rst⟩] else [] := rfl

/-- Unfolding of sweepLoop when at least two boundaries remain. -/
theorem sweepLoop_cons (lastTm rst cnt : Int) (b next : timeRangeBoundary)
    (rest : List timeRangeBoundary) :
    sweepLoop lastTm rst cnt (b :: next :: rest) =
      if b.typ = boundaryType.boundaryStart then
        sweepLoop lastTm (if cnt = 0 then b.tm else rst) (cnt + 1) (next :: rest)
      else if b.tm = next.tm ∧ next.typ = boundaryType.boundaryStart then
        sweepLoop lastTm rst cnt rest
      else if cnt - 1 = 0 then
        ⟨rst, b.tm - rst⟩ :: sweepLoop lastTm rst (cnt - 1) (next :: rest)
      else
        sweepLoop lastTm rst (cnt - 1) (next :: rest) := rfl

/-- Unfolding of Bal at a start boundary. -/
theorem bal_cons_start (t cnt : Int) (l : List timeRangeBoundary) :
    Bal cnt (⟨t, boundaryType.boundaryStart⟩ :: l) ↔ Bal (cnt + 1) l := Iff.rfl

/-- Unfolding of Bal at an end boundary. -/
theorem bal_cons_endB (t cnt : Int) (l : List timeRangeBoundary) :
    Bal cnt (⟨t, boundaryType.boundaryEnd⟩ :: l) ↔ (1 ≤ cnt ∧ Bal (cnt - 1) l) := Iff.rfl

/-- Unfolding of Bal on the empty boundary list. -/
theorem bal_nil (cnt : Int) : Bal cnt ([] : List timeRangeBoundary) ↔ cnt = 0 := Iff.rfl

/-- In a chain sorted by instant, every element of the tail is at least the head. -/
theorem chain_le_mem {b : timeRangeBoundary} {l : List timeRangeBoundary}
    (h : (b :: l).Chain' (fun x y => x.tm ≤ y.tm)) : ∀ c ∈ l, b.tm ≤ c.tm := by
  induction l generalizing b with
  | nil => intro c hc; simp at hc
  | cons x xs ih =>
    intro c hc
    rw [List.chain'_cons] at h
    rcases List.mem_cons.mp hc with rfl | hmem
    · exact h.1
    · exact le_trans h.1 (ih h.2 c hmem)

/-- Inserting one end boundary anywhere to the right of the position where
the open count was raised by one preserves balance. -/
theorem bal_insert_endB (e : Int) :
    ∀ (ys zs : List timeRangeBoundary) (cnt : Int), 0 ≤ cnt → Bal cnt (ys ++ zs) →
      Bal (cnt + 1) (ys ++ ⟨e, boundaryType.boundaryEnd⟩ :: zs) := by
  intro ys
  induction ys with
  | nil =>
    intro zs cnt h0 hb
    simp only [List.nil_append] at *
    rw [bal_cons_endB]
    refine ⟨by omega, ?_⟩
    have h2 : cnt + 1 - 1 = cnt := by ring
    rw [h2]
    exact hb
  | cons y ys ih =>
    intro zs cnt h0 hb
    obtain ⟨ytm, ytyp⟩ := y
    cases ytyp with
    | boundaryStart =>
      rw [List.cons_append, bal_cons_start] at hb ⊢
      have h2 := ih zs (cnt + 1) (by omega) hb
      have h3 : cnt + 1 + 1 = cnt + 1 + 1 := rfl
      exact h2
    | boundaryEnd =>
      rw [List.cons_append, bal_cons_endB] at hb ⊢
      refine ⟨by omega, ?_⟩
      have h2 := ih zs (cnt - 1) (by omega) hb.2
      have h3 : cnt - 1 + 1 = cnt + 1 - 1 := by ring
      rw [h3] at h2
      exact h2

/-- Inserting a start boundary and, to its right, the matching end boundary
preserves balance. -/
theorem bal_insert_pair (s e : Int) :
    ∀ (xs ys zs : List timeRangeBoundary) (cnt : Int), 0 ≤ cnt →
      Bal cnt (xs ++ (ys ++ zs)) →
      Bal cnt (xs ++ ⟨s, boundaryType.boundaryStart⟩ ::
        (ys ++ ⟨e, boundaryType.boundaryEnd⟩ :: zs)) := by
  intro xs
  induction xs with
  | nil =>
    intro ys zs cnt h0 hb
    simp only [List.nil_append] at *
    rw [bal_cons_start]
    exact bal_insert_endB e ys zs cnt h0 hb
  | cons x xs ih =>
    intro ys zs cnt h0 hb
    obtain ⟨xtm, xtyp⟩ := x
    cases xtyp with
    | boundaryStart =>
      rw [List.cons_append, bal_cons_start] at hb ⊢
      exact ih ys zs (cnt + 1) (by omega) hb
    | boundaryEnd =>
      rw [List.cons_append, bal_cons_endB] at hb ⊢
      exact ⟨hb.1, ih ys zs (cnt - 1) (by omega) hb.2⟩

/-- insertB puts the new boundary somewhere in the middle, keeping the
remaining elements in order. -/
theorem insertB_split (b : timeRangeBoundary) :
    ∀ l : List timeRangeBoundary, ∃ ys zs, insertB b l = ys ++ b :: zs ∧ l = ys ++ zs := by
  intro l
  induction l with
  | nil => exact ⟨[], [], rfl, rfl⟩
  | cons c cs ih =>
    by_cases h : b.tm ≤ c.tm
    · exact ⟨[], c :: cs, by simp [insertB, h], rfl⟩
    · obtain ⟨ys, zs, h1, h2⟩ := ih
      exact ⟨c :: ys, zs, by simp [insertB, h, h1], by simp [h2]⟩

/-- Inserting the end boundary and then the start boundary of a single range
(start at most end) always lands the start boundary to the left of the end
boundary. -/
theorem insertB_pair_split (s e : Int) (hse : s ≤ e) :
    ∀ l : List timeRangeBoundary,
      ∃ xs ys zs,
        insertB ⟨s, boundaryType.boundaryStart⟩ (insertB ⟨e, boundaryType.boundaryEnd⟩ l) =
          xs ++ ⟨s, boundaryType.boundaryStart⟩ ::
            (ys ++ ⟨e, boundaryType.boundaryEnd⟩ :: zs) ∧
        l = xs ++ (ys ++ zs) := by
  intro l
  induction l with
  | nil =>
    refine ⟨[], [], [], ?_, rfl⟩
    simp [insertB, hse]
  | cons c cs ih =>
    by_cases he : e ≤ c.tm
    · refine ⟨[], [], c :: cs, ?_, rfl⟩
      simp [insertB, he, hse]
    · by_cases hs : s ≤ c.tm
      · obtain ⟨ys, zs, h1, h2⟩ := insertB_split ⟨e, boundaryType.boundaryEnd⟩ cs
        refine ⟨[], c :: ys, zs, ?_, by simp [h2]⟩
        simp [insertB, he, hs, h1]
      · obtain ⟨xs, ys, zs, h1, h2⟩ := ih
        refine ⟨c :: xs, ys, zs, ?_, by simp [h2]⟩
        simp [insertB, he, hs, h1]

/-- Inserting into a list sorted by instant keeps it sorted. -/
theorem insertB_sorted (b : timeRangeBoundary) :
    ∀ l : List timeRangeBoundary, l.Chain' (fun x y => x.tm ≤ y.tm) →
      (insertB b l).Chain' (fun x y => x.tm ≤ y.tm) := by
  intro l
  induction l with
  | nil => intro _; simp [insertB]
  | cons c cs ih =>
    intro h
    by_cases hb : b.tm ≤ c.tm
    · simp only [insertB, if_pos hb]
      exact List.chain'_cons.mpr ⟨hb, h⟩
    · simp only [insertB, if_neg hb]
      rw [List.chain'_cons'] at h ⊢
      refine ⟨?_, ih h.2⟩
      intro y hy
      cases cs with
      | nil =>
        simp [insertB] at hy
        subst hy
        omega
      | cons x xs =>
        by_cases hbx : b.tm ≤ x.tm
        · simp [insertB, hbx] at hy
          subst hy
          omega
        · simp [insertB, hbx] at hy
          subst hy
          exact h.1 x (by simp)

/-- sortBoundaries sorts by instant. -/
theorem sortBoundaries_sorted (l : List timeRangeBoundary) :
    (sortBoundaries l).Chain' (fun x y => x.tm ≤ y.tm) := by
  induction l with
  | nil => simp [sortBoundaries]
  | cons b bs ih => exact insertB_sorted b (sortBoundaries bs) ih

/-- insertB only adds the new element for counting purposes. -/
theorem insertB_countP (p : timeRangeBoundary → Bool) (b : timeRangeBoundary) :
    ∀ l, (insertB b l).countP p = (b :: l).countP p := by
  intro l
  induction l with
  | nil => rfl
  | cons c cs ih =>
    by_cases h : b.tm ≤ c.tm
    · simp [insertB, h]
    · simp only [insertB, if_neg h, List.countP_cons, ih]
      omega

/-- sortBoundaries preserves all counts. -/
theorem sortBoundaries_countP (p : timeRangeBoundary → Bool) :
    ∀ l, (sortBoundaries l).countP p = l.countP p := by
  intro l
  induction l with
  | nil => rfl
  | cons b bs ih =>
    simp only [sortBoundaries, insertB_countP, List.countP_cons, ih]

/-- The sorted boundary list of valid ranges is balanced. -/
theorem bal_sortBoundaries (R : List RangeV) (h : ∀ r ∈ R, 0 ≤ r.dur) :
    Bal 0 (sortBoundaries (rangesToBoundaries R)) := by
  induction R with
  | nil => exact (bal_nil 0).mpr rfl
  | cons r rest ih =>
    have hr : 0 ≤ r.dur := h r (by simp)
    have hrest := ih (fun x hx => h x (by simp [hx]))
    have hse : r.st ≤ r.End := by simp only [RangeV.End]; omega
    obtain ⟨xs, ys, zs, h1, h2⟩ :=
      insertB_pair_split r.st r.End hse (sortBoundaries (rangesToBoundaries rest))
    show Bal 0 (insertB ⟨r.st, boundaryType.boundaryStart⟩
      (insertB ⟨r.End, boundaryType.boundaryEnd⟩ (sortBoundaries (rangesToBoundaries rest))))
    rw [h1]
    apply bal_insert_pair r.st r.End xs ys zs 0 le_rfl
    rw [← h2]
    exact hrest

/-- Count decomposition of cntS at a cons. -/
theorem cntS_cons (b : timeRangeBoundary) (l : List timeRangeBoundary) (t : Int) :
    cntS (b :: l) t =
      cntS l t + (if b.typ = boundaryType.boundaryStart ∧ b.tm ≤ t then 1 else 0) := by
  simp only [cntS, List.countP_cons, decide_eq_true_eq]

/-- Count decomposition of cntE at a cons. -/
theorem cntE_cons (b : timeRangeBoundary) (l : List timeRangeBoundary) (t : Int) :
    cntE (b :: l) t =
      cntE l t + (if b.typ = boundaryType.boundaryEnd ∧ b.tm ≤ t then 1 else 0) := by
  simp only [cntE, List.countP_cons, decide_eq_true_eq]

/-- Before the first instant of a sorted list no boundary is counted. -/
theorem cnt_zero_of_lt {b : timeRangeBoundary} {l : List timeRangeBoundary} {t : Int}
    (hs : (b :: l).Chain' (fun x y => x.tm ≤ y.tm)) (ht : t < b.tm) :
    cntS l t = 0 ∧ cntE l t = 0 := by
  constructor
  · rw [cntS, List.countP_eq_zero]
    intro a ha
    have := chain_le_mem hs a ha
    simp only [decide_eq_true_eq, not_and]
    intro _
    omega
  · rw [cntE, List.countP_eq_zero]
    intro a ha
    have := chain_le_mem hs a ha
    simp only [decide_eq_true_eq, not_and]
    intro _
    omega

/-- Depth over the raw boundary list counts exactly the ranges covering t,
so positivity of the depth is coverage; the depth is never negative. -/
theorem depth_initial (R : List RangeV) (h : ∀ r ∈ R, 0 ≤ r.dur) (t : Int) :
    (0 < depthAt 0 (rangesToBoundaries R) t ↔ coversL R t) ∧
      0 ≤ depthAt 0 (rangesToBoundaries R) t := by
  induction R with
  | nil =>
    simp [depthAt, cntS, cntE, rangesToBoundaries, coversL]
  | cons r rest ih =>
    have hr : 0 ≤ r.dur := h r (by simp)
    obtain ⟨ih1, ih2⟩ := ih (fun x hx => h x (by simp [hx]))
    have expand : depthAt 0 (rangesToBoundaries (r :: rest)) t =
        depthAt 0 (rangesToBoundaries rest) t +
          (if r.st ≤ t then 1 else 0) - (if r.End ≤ t then 1 else 0) := by
      simp only [rangesToBoundaries, depthAt, cntS_cons, cntE_cons]
      split_ifs <;> simp_all <;> push_cast <;> omega
    have hcov : coversL (r :: rest) t ↔ (coversR r t ∨ coversL rest t) := by
      simp [coversL, List.mem_cons]
    rw [expand, hcov]
    simp only [coversR, RangeV.End] at *
    constructor
    · constructor
      · intro hpos
        by_cases h1 : r.st ≤ t <;> by_cases h2 : r.st + r.dur ≤ t
        · right; rw [← ih1]; omega
        · left; exact ⟨h1, by omega⟩
        · omega
        · right; rw [← ih1]; omega
      · rintro (⟨h1, h2⟩ | hc)
        · have h3 : ¬(r.st + r.dur ≤ t) := by omega
          split_ifs <;> omega
        · have := ih1.mpr hc
          split_ifs <;> omega
    · split_ifs <;> omega

/-- Unfolding of SepChain at a cons. -/
theorem sepChain_cons (lo : Int) (r : RangeV) (l : List RangeV) :
    SepChain lo (r :: l) ↔ (lo ≤ r.st ∧ 0 ≤ r.dur ∧ SepChain (r.End + 1) l) := Iff.rfl

/-- SepChain holds vacuously of the empty list. -/
theorem sepChain_nil (lo : Int) : SepChain lo ([] : List RangeV) := trivial

/-- Depth decomposition at a start boundary. -/
theorem depthAt_cons_S (τ : Int) (l : List timeRangeBoundary) (cnt t : Int) :
    depthAt cnt (⟨τ, boundaryType.boundaryStart⟩ :: l) t =
      depthAt (cnt + 1) l t - 1 + (if τ ≤ t then 1 else 0) := by
  simp only [depthAt, cntS_cons, cntE_cons]
  split_ifs <;> simp_all <;> push_cast <;> omega

/-- Depth decomposition at an end boundary. -/
theorem depthAt_cons_E (τ : Int) (l : List timeRangeBoundary) (cnt t : Int) :
    depthAt cnt (⟨τ, boundaryType.boundaryEnd⟩ :: l) t =
      depthAt (cnt - 1) l t + 1 - (if τ ≤ t then 1 else 0) := by
  simp only [depthAt, cntS_cons, cntE_cons]
  split_ifs <;> simp_all <;> push_cast <;> omega

/-- Before the first boundary of a sorted tail the depth is just the open count. -/
theorem depthAt_of_lt {b : timeRangeBoundary} {l : List timeRangeBoundary} {t : Int}
    (hs : (b :: l).Chain' (fun x y => x.tm ≤ y.tm)) (ht : t < b.tm) (cnt : Int) :
    depthAt cnt l t = cnt := by
  obtain ⟨h1, h2⟩ := cnt_zero_of_lt hs ht
  simp [depthAt, h1, h2]

/-- Coverage of a cons is coverage of the head or of the tail. -/
theorem coversL_cons (r : RangeV) (l : List RangeV) (t : Int) :
    coversL (r :: l) t ↔ (coversR r t ∨ coversL l t) := by
  simp [coversL, List.mem_cons]

/-- Master invariant of the boundary sweep.  On a sorted, balanced suffix with
cnt currently open ranges (run started at rst when cnt is positive) the sweep
emits a strictly separated chain of valid ranges, covers exactly the instants
of positive depth reachable from the state, and emits at least one range when
any boundary remains. -/
theorem sweep_master :
    ∀ (n : Nat) (bs : List timeRangeBoundary) (lastTm rst cnt : Int),
      bs.length ≤ n →
      Bal cnt bs →
      0 ≤ cnt →
      bs.Chain' (fun x y => x.tm ≤ y.tm) →
      (0 < cnt → ∀ b ∈ bs, rst ≤ b.tm) →
      (∀ hne : bs ≠ [], lastTm = (bs.getLast hne).tm) →
      (∀ lo : Int, (0 < cnt → lo ≤ rst) → (cnt = 0 → ∀ b ∈ bs, lo ≤ b.tm) →
          SepChain lo (sweepLoop lastTm rst cnt bs)) ∧
      (∀ t : Int, coversL (sweepLoop lastTm rst cnt bs) t ↔
          (0 < depthAt cnt bs t ∧ (0 < cnt → rst ≤ t))) ∧
      (bs ≠ [] → sweepLoop lastTm rst cnt bs ≠ []) := by
  intro n
  induction n with
  | zero =>
    intro bs lastTm rst cnt hlen hbal hcnt hchain hrst hlast
    have hbs : bs = [] := List.length_eq_zero.mp (Nat.le_zero.mp hlen)
    subst hbs
    have hc0 : cnt = 0 := (bal_nil cnt).mp hbal
    subst hc0
    have hout : sweepLoop lastTm rst 0 [] = [] := by
      rw [sweepLoop_nil]; norm_num
    rw [hout]
    refine ⟨fun lo _ _ => sepChain_nil lo, ?_, fun h => absurd rfl h⟩
    intro t
    simp [coversL, depthAt, cntS, cntE]
  | succ n ih =>
    intro bs lastTm rst cnt hlen hbal hcnt hchain hrst hlast
    rcases bs with _ | ⟨⟨btm, btyp⟩, bs'⟩
    · -- empty list: identical to the base case
      have hc0 : cnt = 0 := (bal_nil cnt).mp hbal
      subst hc0
      have hout : sweepLoop lastTm rst 0 [] = [] := by
        rw [sweepLoop_nil]; norm_num
      rw [hout]
      refine ⟨fun lo _ _ => sepChain_nil lo, ?_, fun h => absurd rfl h⟩
      intro t
      simp [coversL, depthAt, cntS, cntE]
    rcases bs' with _ | ⟨next, rest⟩
    · -- exactly one boundary left: it must be an end boundary with cnt = 1
      cases btyp with
      | boundaryStart =>
        exfalso
        rw [bal_cons_start, bal_nil] at hbal
        omega
      | boundaryEnd =>
        rw [bal_cons_endB, bal_nil] at hbal
        have hc1 : cnt = 1 := by omega
        subst hc1
        have hlastv : lastTm = btm := by
          have := hlast (by simp)
          simpa [List.getLast] using this
        have hout : sweepLoop lastTm rst 1 [⟨btm, boundaryType.boundaryEnd⟩] =
            [⟨rst, btm - rst⟩] := by
          rw [sweepLoop_single, hlastv]; norm_num
        have hrb : rst ≤ btm := hrst (by norm_num) ⟨btm, boundaryType.boundaryEnd⟩ (by simp)
        rw [hout]
        refine ⟨?_, ?_, by simp⟩
        · intro lo hlo _
          exact (sepChain_cons lo _ _).mpr
            ⟨hlo (by norm_num), (by omega : (0:Int) ≤ btm - rst), sepChain_nil _⟩
        · intro t
          rw [coversL_cons]
          have hd := depthAt_cons_E btm [] 1 t
          have hd0 : depthAt (1 - 1) ([] : List timeRangeBoundary) t = 0 := by
            simp [depthAt, cntS, cntE]
          rw [hd0] at hd
          simp only [coversL, coversR, RangeV.End, List.not_mem_nil, false_and, exists_false,
            or_false] at *
          rw [hd]
          split_ifs <;> constructor <;> intro h <;> first
            | exact ⟨by omega, fun _ => by omega⟩
            | exact ⟨h.1, by omega⟩
            | omega
            | exact absurd h.1 (by omega)
    · -- at least two boundaries remain: the loop body cases
      have hlen2 : (next :: rest).length ≤ n := by
        simp only [List.length_cons] at hlen ⊢; omega
      have hlenr : rest.length ≤ n := by
        simp only [List.length_cons] at hlen ⊢; omega
      cases btyp with
      | boundaryStart =>
        rw [bal_cons_start] at hbal
        have hchain' : (next :: rest).Chain' (fun x y => x.tm ≤ y.tm) := hchain.tail
        have hrstOK' : 0 < cnt + 1 → ∀ x ∈ next :: rest,
            (if cnt = 0 then btm else rst) ≤ x.tm := by
          intro _ x hx
          by_cases h0 : cnt = 0
          · rw [if_pos h0]
            exact chain_le_mem hchain x hx
          · rw [if_neg h0]
            exact hrst (by omega) x (List.mem_cons_of_mem _ hx)
        have hlast' : ∀ hne : (next :: rest) ≠ [],
            lastTm = ((next :: rest).getLast hne).tm := by
          intro hne
          rw [hlast (by simp), List.getLast_cons hne]
        obtain ⟨IH1, IH2, IH3⟩ := ih (next :: rest) lastTm (if cnt = 0 then btm else rst)
          (cnt + 1) hlen2 hbal (by omega) hchain' hrstOK' hlast'
        have hout : sweepLoop lastTm rst cnt
            (⟨btm, boundaryType.boundaryStart⟩ :: next :: rest) =
            sweepLoop lastTm (if cnt = 0 then btm else rst) (cnt + 1) (next :: rest) := by
          rw [sweepLoop_cons, if_pos (by simp)]
        rw [hout]
        refine ⟨?_, ?_, fun _ => IH3 (by simp)⟩
        · intro lo hlo1 hlo2
          apply IH1 lo
          · intro _
            by_cases h0 : cnt = 0
            · rw [if_pos h0]
              exact hlo2 h0 ⟨btm, boundaryType.boundaryStart⟩ (by simp)
            · rw [if_neg h0]
              exact hlo1 (by omega)
          · intro hc
            exact absurd hc (by omega)
        · intro t
          rw [IH2 t]
          have hd := depthAt_cons_S btm (next :: rest) cnt t
          by_cases h0 : cnt = 0
          · rw [if_pos h0]
            by_cases hts : btm ≤ t
            · rw [if_pos hts] at hd
              omega
            · rw [if_neg hts] at hd
              have hD := depthAt_of_lt hchain ((by omega : t < btm)) (cnt + 1)
              omega
          · rw [if_neg h0]
            by_cases hts : btm ≤ t
            · rw [if_pos hts] at hd
              omega
            · rw [if_neg hts] at hd
              have hD := depthAt_of_lt hchain ((by omega : t < btm)) (cnt + 1)
              omega
      | boundaryEnd =>
        by_cases hskip : btm = next.tm ∧ next.typ = boundaryType.boundaryStart
        · -- look-ahead skip: an end and a start at the same instant cancel
          rw [bal_cons_endB] at hbal
          obtain ⟨hcnt1, hbal2⟩ := hbal
          obtain ⟨hteq0, htypeq⟩ := hskip
          rcases next with ⟨ntm, ntyp⟩
          cases ntyp with
          | boundaryEnd => exact absurd htypeq (by simp)
          | boundaryStart =>
            have hteq : btm = ntm := hteq0
            subst hteq
            rw [bal_cons_start] at hbal2
            have hbal' : Bal cnt rest := by
              have h2 : cnt - 1 + 1 = cnt := by ring
              rwa [h2] at hbal2
            have hrestne : rest ≠ [] := by
              intro h
              subst h
              rw [bal_nil] at hbal'
              omega
            have hchain' : rest.Chain' (fun x y => x.tm ≤ y.tm) := hchain.tail.tail
            have hrstOK' : 0 < cnt → ∀ x ∈ rest, rst ≤ x.tm := fun hc x hx =>
              hrst hc x (by simp [hx])
            have hlast' : ∀ hne : rest ≠ [], lastTm = (rest.getLast hne).tm := by
              intro hne
              rw [hlast (by simp), List.getLast_cons (by simp [hne]), List.getLast_cons hne]
            obtain ⟨IH1, IH2, IH3⟩ :=
              ih rest lastTm rst cnt hlenr hbal' hcnt hchain' hrstOK' hlast'
            have hout : sweepLoop lastTm rst cnt
                (⟨btm, boundaryType.boundaryEnd⟩ ::
                  ⟨btm, boundaryType.boundaryStart⟩ :: rest) =
                sweepLoop lastTm rst cnt rest := by
              rw [sweepLoop_cons, if_neg (by simp), if_pos (by simp)]
            rw [hout]
            refine ⟨?_, ?_, fun _ => IH3 hrestne⟩
            · intro lo hlo1 hlo2
              exact IH1 lo hlo1 (fun hc x hx => hlo2 hc x (by simp [hx]))
            · intro t
              rw [IH2 t]
              have hdE := depthAt_cons_E btm
                (⟨btm, boundaryType.boundaryStart⟩ :: rest) cnt t
              have hdS := depthAt_cons_S btm rest (cnt - 1) t
              have h2 : cnt - 1 + 1 = cnt := by ring
              rw [h2] at hdS
              by_cases hts : btm ≤ t
              · rw [if_pos hts] at hdE hdS
                omega
              · rw [if_neg hts] at hdE hdS
                omega
        · -- genuine end boundary: decrement, emitting if the count reaches zero
          rw [bal_cons_endB] at hbal
          obtain ⟨hcnt1, hbal'⟩ := hbal
          have hchain' : (next :: rest).Chain' (fun x y => x.tm ≤ y.tm) := hchain.tail
          have hrstOK' : 0 < cnt - 1 → ∀ x ∈ next :: rest, rst ≤ x.tm := fun _ x hx =>
            hrst (by omega) x (List.mem_cons_of_mem _ hx)
          have hlast' : ∀ hne : (next :: rest) ≠ [],
              lastTm = ((next :: rest).getLast hne).tm := by
            intro hne
            rw [hlast (by simp), List.getLast_cons hne]
          obtain ⟨IH1, IH2, IH3⟩ :=
            ih (next :: rest) lastTm rst (cnt - 1) hlen2 hbal' (by omega) hchain' hrstOK' hlast'
          have hrb : rst ≤ btm := hrst (by omega) ⟨btm, boundaryType.boundaryEnd⟩ (by simp)
          by_cases hclose : cnt - 1 = 0
          · have hout : sweepLoop lastTm rst cnt
                (⟨btm, boundaryType.boundaryEnd⟩ :: next :: rest) =
                ⟨rst, btm - rst⟩ :: sweepLoop lastTm rst (cnt - 1) (next :: rest) := by
              rw [sweepLoop_cons, if_neg (by simp), if_neg hskip, if_pos hclose]
            rw [hout]
            have hnexts : ∀ x ∈ next :: rest, btm + 1 ≤ x.tm := by
              have hntyp : next.typ = boundaryType.boundaryStart := by
                rcases next with ⟨ntm2, ntyp2⟩
                cases ntyp2 with
                | boundaryStart => rfl
                | boundaryEnd =>
                  exfalso
                  rw [bal_cons_endB] at hbal'
                  omega
              have hne : btm ≠ next.tm := fun he => hskip ⟨he, hntyp⟩
              have hle : btm ≤ next.tm := (List.chain'_cons.mp hchain).1
              intro x hx
              rcases List.mem_cons.mp hx with rfl | hmem
              · omega
              · have := chain_le_mem hchain.tail x hmem
                omega
            refine ⟨?_, ?_, by simp⟩
            · intro lo hlo1 hlo2
              refine (sepChain_cons lo _ _).mpr
                ⟨hlo1 (by omega), (by omega : (0:Int) ≤ btm - rst), ?_⟩
              have hEnd : (⟨rst, btm - rst⟩ : RangeV).End + 1 = btm + 1 := by
                simp only [RangeV.End]; omega
              rw [hEnd]
              exact IH1 (btm + 1) (fun hc => absurd hclose (by omega)) (fun _ => hnexts)
            · intro t
              rw [coversL_cons, IH2 t]
              have hdE := depthAt_cons_E btm (next :: rest) cnt t
              simp only [coversR, RangeV.End]
              by_cases hts : btm ≤ t
              · rw [if_pos hts] at hdE
                omega
              · rw [if_neg hts] at hdE
                have hD := depthAt_of_lt hchain ((by omega : t < btm)) (cnt - 1)
                omega
          · have hout : sweepLoop lastTm rst cnt
                (⟨btm, boundaryType.boundaryEnd⟩ :: next :: rest) =
                sweepLoop lastTm rst (cnt - 1) (next :: rest) := by
              rw [sweepLoop_cons, if_neg (by simp), if_neg hskip, if_neg hclose]
            rw [hout]
            refine ⟨?_, ?_, fun _ => IH3 (by simp)⟩
            · intro lo hlo1 hlo2
              exact IH1 lo (fun _ => hlo1 (by omega)) (fun hc => absurd hc hclose)
            · intro t
              rw [IH2 t]
              have hdE := depthAt_cons_E btm (next :: rest) cnt t
              by_cases hts : btm ≤ t
              · rw [if_pos hts] at hdE
                omega
              · rw [if_neg hts] at hdE
                have hD := depthAt_of_lt hchain ((by omega : t < btm)) (cnt - 1)
                omega

/-- insertB never returns the empty list. -/
theorem insertB_ne_nil (b : timeRangeBoundary) (l : List timeRangeBoundary) :
    insertB b l ≠ [] := by
  cases l with
  | nil => simp [insertB]
  | cons c cs => by_cases h : b.tm ≤ c.tm <;> simp [insertB, h]

/-- getLastD of the tail is the last element of the cons. -/
theorem getLastD_tm (b : timeRangeBoundary) (l : List timeRangeBoundary)
    (hne : (b :: l) ≠ []) : l.getLastD b = (b :: l).getLast hne := by
  induction l generalizing b with
  | nil => rfl
  | cons x xs ih =>
    rw [List.getLastD_cons, List.getLast_cons (by simp), ih x (by simp)]

/-- Every member of a SepChain starts at or after the bound and has
non-negative duration. -/
theorem sepChain_mem : ∀ (lo : Int) (l : List RangeV), SepChain lo l →
    ∀ x ∈ l, lo ≤ x.st ∧ 0 ≤ x.dur := by
  intro lo l
  induction l generalizing lo with
  | nil => intro _ x hx; simp at hx
  | cons r rest ih =>
    intro hs x hx
    rw [sepChain_cons] at hs
    obtain ⟨h1, h2, h3⟩ := hs
    rcases List.mem_cons.mp hx with rfl | hmem
    · exact ⟨h1, h2⟩
    · have := ih (r.End + 1) h3 x hmem
      simp only [RangeV.End] at this
      constructor
      · omega
      · exact this.2

/-- A SepChain is strictly sorted by start. -/
theorem sepChain_chain_strict : ∀ (lo : Int) (l : List RangeV), SepChain lo l →
    l.Chain' (fun a b => a.st < b.st) := by
  intro lo l
  induction l generalizing lo with
  | nil => intro _; simp
  | cons r rest ih =>
    intro hs
    rw [sepChain_cons] at hs
    obtain ⟨h1, h2, h3⟩ := hs
    cases rest with
    | nil => simp
    | cons x xs =>
      rw [List.chain'_cons]
      have hx := sepChain_mem (r.End + 1) (x :: xs) h3 x (by simp)
      simp only [RangeV.End] at hx
      exact ⟨by omega, ih (r.End + 1) h3⟩

/-- A SepChain is pairwise strictly separated. -/
theorem sepChain_pairwise : ∀ (lo : Int) (l : List RangeV), SepChain lo l →
    l.Pairwise (fun a b => a.End < b.st) := by
  intro lo l
  induction l generalizing lo with
  | nil => intro _; simp
  | cons r rest ih =>
    intro hs
    rw [sepChain_cons] at hs
    obtain ⟨h1, h2, h3⟩ := hs
    rw [List.pairwise_cons]
    refine ⟨?_, ih (r.End + 1) h3⟩
    intro x hx
    have := sepChain_mem (r.End + 1) rest h3 x hx
    omega

/-- Strictly separated ranges share no instant. -/
theorem sepChain_disjoint (lo : Int) (l : List RangeV) (hs : SepChain lo l) :
    l.Pairwise (fun a b => ∀ t : Int, ¬(coversR a t ∧ coversR b t)) := by
  refine (sepChain_pairwise lo l hs).imp ?_
  intro a b hab t hc
  obtain ⟨⟨_, h2⟩, h3, _⟩ := hc
  simp only [coversR] at *
  omega

/-- The depth over the sorted boundaries equals the depth over the raw ones. -/
theorem depth_sortBoundaries (l : List timeRangeBoundary) (cnt t : Int) :
    depthAt cnt (sortBoundaries l) t = depthAt cnt l t := by
  simp [depthAt, cntS, cntE, sortBoundaries_countP]

/-- Summary of the sweep through MergeOverlappingRanges: the output is a
separated chain, covers exactly the same instants as the input, and is
non-empty whenever the input is. -/
theorem merge_master (R : List RangeV) (h : ∀ r ∈ R, 0 ≤ r.dur) :
    (∃ lo, SepChain lo (MergeOverlappingRanges R)) ∧
    (∀ t : Int, coversL (MergeOverlappingRanges R) t ↔ coversL R t) ∧
    (R ≠ [] → MergeOverlappingRanges R ≠ []) := by
  have hbal := bal_sortBoundaries R h
  have hsorted := sortBoundaries_sorted (rangesToBoundaries R)
  cases hbs : sortBoundaries (rangesToBoundaries R) with
  | nil =>
    have hR : R = [] := by
      cases R with
      | nil => rfl
      | cons r rest =>
        exfalso
        exact insertB_ne_nil _ _ hbs
    subst hR
    have hmerge : MergeOverlappingRanges [] = [] := rfl
    rw [hmerge]
    exact ⟨⟨0, sepChain_nil 0⟩, fun t => Iff.rfl, fun hne => absurd rfl hne⟩
  | cons b bs' =>
    rw [hbs] at hbal hsorted
    have hdepth : ∀ t : Int, depthAt 0 (b :: bs') t = depthAt 0 (rangesToBoundaries R) t := by
      intro t
      rw [← hbs, depth_sortBoundaries]
    have hmerge : MergeOverlappingRanges R = sweepLoop ((bs'.getLastD b).tm) 0 0 (b :: bs') := by
      unfold MergeOverlappingRanges
      rw [hbs]
    obtain ⟨M1, M2, M3⟩ := sweep_master (b :: bs').length (b :: bs') ((bs'.getLastD b).tm) 0 0
      le_rfl hbal le_rfl hsorted (fun hc => absurd hc (by norm_num))
      (fun hne => by rw [getLastD_tm b bs' hne])
    rw [hmerge]
    refine ⟨⟨b.tm, M1 b.tm (fun hc => absurd hc (by norm_num)) ?_⟩, ?_, fun _ => M3 (by simp)⟩
    · intro _ x hx
      rcases List.mem_cons.mp hx with rfl | hmem
      · exact le_rfl
      · exact chain_le_mem hsorted x hmem
    · intro t
      rw [M2 t, hdepth t]
      have hdi := (depth_initial R h t).1
      constructor
      · rintro ⟨hp, _⟩
        exact hdi.mp hp
      · intro hc
        exact ⟨hdi.mpr hc, fun h0 => absurd h0 (by norm_num)⟩

/-- C1: MergeOverlappingRanges returns ranges sorted ascending by start, no
two output ranges share any instant, and earlier output ranges end strictly
before later ones start — so an output range ending exactly where the next
starts is impossible, i.e. adjacent touching inputs have been fused into one
run — and the union of instants covered by the output equals that covered by
the input. -/
theorem merge_disjoint_sorted_union (R : List RangeV) (h : ∀ r ∈ R, 0 ≤ r.dur) :
    (MergeOverlappingRanges R).Chain' (fun a b => a.st < b.st) ∧
    (MergeOverlappingRanges R).Pairwise (fun a b => a.End < b.st) ∧
    (MergeOverlappingRanges R).Pairwise (fun a b => ∀ t : Int, ¬(coversR a t ∧ coversR b t)) ∧
    (∀ t : Int, coversL (MergeOverlappingRanges R) t ↔ coversL R t) := by
  obtain ⟨⟨lo, hsep⟩, hcov, _⟩ := merge_master R h
  exact ⟨sepChain_chain_strict lo _ hsep, sepChain_pairwise lo _ hsep,
    sepChain_disjoint lo _ hsep, hcov⟩

/-- Witness for merge_disjoint_sorted_union at a concrete list containing an
exact-touch pair, which the merge fuses. -/
theorem merge_disjoint_sorted_union_w :
    (MergeOverlappingRanges [⟨3, 4⟩, ⟨0, 3⟩, ⟨10, 2⟩]).Chain' (fun a b => a.st < b.st) ∧
    (MergeOverlappingRanges [⟨3, 4⟩, ⟨0, 3⟩, ⟨10, 2⟩]).Pairwise (fun a b => a.End < b.st) ∧
    (MergeOverlappingRanges [⟨3, 4⟩, ⟨0, 3⟩, ⟨10, 2⟩]).Pairwise
      (fun a b => ∀ t : Int, ¬(coversR a t ∧ coversR b t)) ∧
    (∀ t : Int, coversL (MergeOverlappingRanges [⟨3, 4⟩, ⟨0, 3⟩, ⟨10, 2⟩]) t ↔
      coversL [⟨3, 4⟩, ⟨0, 3⟩, ⟨10, 2⟩] t) :=
  merge_disjoint_sorted_union [⟨3, 4⟩, ⟨0, 3⟩, ⟨10, 2⟩] (by decide)

/-- Sorting leaves an already sorted boundary list unchanged. -/
theorem sortBoundaries_of_sorted : ∀ l : List timeRangeBoundary,
    l.Chain' (fun x y => x.tm ≤ y.tm) → sortBoundaries l = l := by
  intro l
  induction l with
  | nil => intro _; rfl
  | cons b bs ih =>
    intro h
    show insertB b (sortBoundaries bs) = b :: bs
    rw [ih h.tail]
    cases bs with
    | nil => rfl
    | cons x xs =>
      have hb : b.tm ≤ x.tm := (List.chain'_cons.mp h).1
      simp [insertB, hb]

/-- The boundary expansion of a separated chain is already sorted. -/
theorem sepChain_boundaries_sorted : ∀ (lo : Int) (l : List RangeV), SepChain lo l →
    (rangesToBoundaries l).Chain' (fun x y => x.tm ≤ y.tm) := by
  intro lo l
  induction l generalizing lo with
  | nil => simp [rangesToBoundaries]
  | cons r rest ih =>
    intro hs
    rw [sepChain_cons] at hs
    obtain ⟨h1, h2, h3⟩ := hs
    show List.Chain' _ (⟨r.st, boundaryType.boundaryStart⟩ ::
      ⟨r.End, boundaryType.boundaryEnd⟩ :: rangesToBoundaries rest)
    rw [List.chain'_cons]
    refine ⟨by simp only [RangeV.End]; omega, ?_⟩
    cases rest with
    | nil => simp [rangesToBoundaries]
    | cons x xs =>
      rw [show rangesToBoundaries (x :: xs) = ⟨x.st, boundaryType.boundaryStart⟩ ::
        ⟨x.End, boundaryType.boundaryEnd⟩ :: rangesToBoundaries xs from rfl, List.chain'_cons]
      refine ⟨?_, ih (r.End + 1) h3⟩
      have := sepChain_mem (r.End + 1) (x :: xs) h3 x (by simp)
      simp only
      omega

/-- The last boundary of the expansion of a non-empty list is the end
boundary of its last range. -/
theorem r2b_getLast2 : ∀ (l : List RangeV) (r : RangeV),
    (rangesToBoundaries (r :: l)).getLast? =
      some ⟨(l.getLastD r).End, boundaryType.boundaryEnd⟩ := by
  intro l
  induction l with
  | nil => intro r; rfl
  | cons x xs ih =>
    intro r
    rw [show rangesToBoundaries (r :: x :: xs) = ⟨r.st, boundaryType.boundaryStart⟩ ::
      ⟨r.End, boundaryType.boundaryEnd⟩ :: rangesToBoundaries (x :: xs) from rfl]
    rw [List.getLast?_cons_cons]
    rw [show rangesToBoundaries (x :: xs) = ⟨x.st, boundaryType.boundaryStart⟩ ::
      ⟨x.End, boundaryType.boundaryEnd⟩ :: rangesToBoundaries xs from rfl]
    rw [List.getLast?_cons_cons]
    rw [show (⟨x.st, boundaryType.boundaryStart⟩ :: ⟨x.End, boundaryType.boundaryEnd⟩ ::
      rangesToBoundaries xs) = rangesToBoundaries (x :: xs) from rfl]
    rw [ih x, List.getLastD_cons]

/-- The sweep maps the boundary expansion of a separated chain back to the
chain itself (whatever the recorded run start is, since the count is zero). -/
theorem sweep_reproduces : ∀ (l : List RangeV) (lo rst : Int) (hne : l ≠ []),
    SepChain lo l →
    sweepLoop (l.getLast hne).End rst 0 (rangesToBoundaries l) = l := by
  intro l
  induction l with
  | nil => intro lo rst hne; exact absurd rfl hne
  | cons r rest ih =>
    intro lo rst hne hs
    rw [sepChain_cons] at hs
    obtain ⟨h1, h2, h3⟩ := hs
    have hr : (⟨r.st, r.End - r.st⟩ : RangeV) = r := by
      cases r
      simp [RangeV.End]
    cases rest with
    | nil =>
      show sweepLoop (RangeV.End r) rst 0
        [⟨r.st, boundaryType.boundaryStart⟩, ⟨r.End, boundaryType.boundaryEnd⟩] = [r]
      rw [sweepLoop_cons, if_pos (by simp), sweepLoop_single]
      show (if (0 : Int) + 1 - 1 = 0 then [(⟨r.st, r.End - r.st⟩ : RangeV)] else []) = [r]
      rw [if_pos (by norm_num), hr]
    | cons x xs =>
      have hxmem := sepChain_mem (r.End + 1) (x :: xs) h3 x (by simp)
      show sweepLoop ((r :: x :: xs).getLast hne).End rst 0
        (⟨r.st, boundaryType.boundaryStart⟩ :: ⟨r.End, boundaryType.boundaryEnd⟩ ::
          rangesToBoundaries (x :: xs)) = r :: x :: xs
      rw [show rangesToBoundaries (x :: xs) = ⟨x.st, boundaryType.boundaryStart⟩ ::
        ⟨x.End, boundaryType.boundaryEnd⟩ :: rangesToBoundaries xs from rfl]
      rw [sweepLoop_cons, if_pos (by simp)]
      rw [sweepLoop_cons, if_neg (by simp), if_neg (by simp only; omega), if_pos (by norm_num)]
      have hIH := ih (r.End + 1) r.st (by simp) h3
      have hlast : ((r :: x :: xs).getLast hne) = ((x :: xs).getLast (by simp)) :=
        List.getLast_cons (by simp)
      show (⟨r.st, r.End - r.st⟩ : RangeV) ::
        sweepLoop ((r :: x :: xs).getLast hne).End r.st 0 (rangesToBoundaries (x :: xs)) =
          r :: x :: xs
      rw [hr, hlast]
      exact congrArg (fun z => r :: z) hIH

/-- getLastD of the tail is the last of the cons (generic version). -/
theorem getLastD_eq_getLast {α : Type} (b : α) (l : List α) (hne : (b :: l) ≠ []) :
    l.getLastD b = (b :: l).getLast hne := by
  induction l generalizing b with
  | nil => rfl
  | cons x xs ih =>
    rw [List.getLastD_cons, List.getLast_cons (by simp), ih x (by simp)]

/-- Merging an already separated, sorted chain returns it unchanged. -/
theorem merge_idem (lo : Int) (l : List RangeV) (hs : SepChain lo l) :
    MergeOverlappingRanges l = l := by
  cases l with
  | nil => rfl
  | cons r rest =>
    have hsorted := sepChain_boundaries_sorted lo (r :: rest) hs
    have hfix := sortBoundaries_of_sorted _ hsorted
    have hstep : MergeOverlappingRanges (r :: rest) =
        sweepLoop (((⟨r.End, boundaryType.boundaryEnd⟩ :: rangesToBoundaries rest).getLastD
          ⟨r.st, boundaryType.boundaryStart⟩).tm) 0 0
          (rangesToBoundaries (r :: rest)) := by
      unfold MergeOverlappingRanges
      rw [hfix]
      rfl
    rw [hstep]
    have hX : ((⟨r.End, boundaryType.boundaryEnd⟩ :: rangesToBoundaries rest).getLastD
        ⟨r.st, boundaryType.boundaryStart⟩).tm = (rest.getLastD r).End := by
      have h2 := r2b_getLast2 rest r
      have h3 := List.getLast?_eq_getLast (l := rangesToBoundaries (r :: rest))
        (by simp [rangesToBoundaries])
      rw [h3] at h2
      have h4 := Option.some.inj h2
      rw [getLastD_eq_getLast ⟨r.st, boundaryType.boundaryStart⟩
        (⟨r.End, boundaryType.boundaryEnd⟩ :: rangesToBoundaries rest) (by simp)]
      exact congrArg timeRangeBoundary.tm h4
    rw [hX]
    have hglr := getLastD_eq_getLast r rest (by simp)
    have hrepr := sweep_reproduces (r :: rest) lo 0 (by simp) hs
    rw [← hglr] at hrepr
    exact hrepr

/-- C2: MergeOverlappingRanges is idempotent on lists of valid ranges. -/
theorem merge_idempotent (R : List RangeV) (h : ∀ r ∈ R, 0 ≤ r.dur) :
    MergeOverlappingRanges (MergeOverlappingRanges R) = MergeOverlappingRanges R := by
  obtain ⟨⟨lo, hsep⟩, _, _⟩ := merge_master R h
  exact merge_idem lo _ hsep

/-- Witness for merge_idempotent at a concrete list. -/
theorem merge_idempotent_w :
    MergeOverlappingRanges (MergeOverlappingRanges [⟨0, 5⟩, ⟨3, 4⟩, ⟨20, 0⟩]) =
      MergeOverlappingRanges [⟨0, 5⟩, ⟨3, 4⟩, ⟨20, 0⟩] :=
  merge_idempotent [⟨0, 5⟩, ⟨3, 4⟩, ⟨20, 0⟩] (by decide)

/-- C6: flipping a list of sub-ranges equals flipping its normalized form,
because FlipDateRanges normalizes internally and the normalizer is
idempotent. -/
theorem flip_merge_compose (p : RangeV) (ranges : List RangeV)
    (h : ∀ r ∈ ranges, 0 ≤ r.dur) :
    p.FlipDateRanges ranges = p.FlipDateRanges (MergeOverlappingRanges ranges) := by
  cases ranges with
  | nil => rfl
  | cons r rest =>
    obtain ⟨⟨lo, hsep⟩, _, hnemp⟩ := merge_master (r :: rest) h
    have hidem := merge_idem lo _ hsep
    cases hm : MergeOverlappingRanges (r :: rest) with
    | nil => exact absurd hm (hnemp (by simp))
    | cons m ms =>
      show p.flipValidRanges (MergeOverlappingRanges (r :: rest)) =
        p.flipValidRanges (MergeOverlappingRanges (m :: ms))
      rw [← hm, hidem]

/-- Witness for flip_merge_compose at a concrete period and list. -/
theorem flip_merge_compose_w :
    (⟨0, 100⟩ : RangeV).FlipDateRanges [⟨10, 5⟩, ⟨12, 8⟩] =
      (⟨0, 100⟩ : RangeV).FlipDateRanges (MergeOverlappingRanges [⟨10, 5⟩, ⟨12, 8⟩]) :=
  flip_merge_compose ⟨0, 100⟩ [⟨10, 5⟩, ⟨12, 8⟩] (by decide)


/-- flipGaps on fewer than two ranges emits nothing. -/
theorem flipGaps_single (a : RangeV) : flipGaps [a] = [] := rfl

/-- flipGaps unfolding on two or more ranges. -/
theorem flipGaps_cons (a b : RangeV) (rest : List RangeV) :
    flipGaps (a :: b :: rest) = ⟨a.End, b.st - a.End⟩ :: flipGaps (b :: rest) := rfl

/-- Facts about the interior gaps and trailing gap of flipValidRanges over a
separated chain contained in the period: every emitted gap lies between the
end of the first range and the period end, has non-negative duration, the
gaps are strictly sorted by start, and no gap shares an instant with any of
the sub-ranges. -/
theorem flip_tail_facts : ∀ (l : List RangeV) (x : RangeV) (pEnd : Int),
    0 ≤ x.dur → SepChain (x.End + 1) l → (∀ s ∈ x :: l, s.End ≤ pEnd) →
    (∀ g ∈ flipGaps (x :: l) ++
        (if pEnd = (l.getLastD x).End then ([] : List RangeV)
         else [(⟨(l.getLastD x).End, pEnd - (l.getLastD x).End⟩ : RangeV)]),
      x.End ≤ g.st ∧ 0 ≤ g.dur ∧ g.End ≤ pEnd) ∧
    List.Chain' (fun a b => a.st < b.st)
      (flipGaps (x :: l) ++
        (if pEnd = (l.getLastD x).End then ([] : List RangeV)
         else [(⟨(l.getLastD x).End, pEnd - (l.getLastD x).End⟩ : RangeV)])) ∧
    (∀ g ∈ flipGaps (x :: l) ++
        (if pEnd = (l.getLastD x).End then ([] : List RangeV)
         else [(⟨(l.getLastD x).End, pEnd - (l.getLastD x).End⟩ : RangeV)]),
      ∀ s ∈ x :: l, ∀ t : Int, ¬(coversR g t ∧ coversR s t)) := by
  intro l
  induction l with
  | nil =>
    intro x pEnd hx _ hEnds
    have hxe : x.End ≤ pEnd := hEnds x (by simp)
    have hgld : (List.getLastD ([] : List RangeV) x) = x := rfl
    rw [flipGaps_single, hgld, List.nil_append]
    by_cases hpe : pEnd = x.End
    · rw [if_pos hpe]
      exact ⟨by simp, by simp, by simp⟩
    · rw [if_neg hpe]
      refine ⟨?_, by simp, ?_⟩
      · intro g hg
        rcases List.mem_singleton.mp hg with rfl
        refine ⟨le_rfl, (by omega : (0 : Int) ≤ pEnd - x.End), ?_⟩
        show x.End + (pEnd - x.End) ≤ pEnd
        omega
      · intro g hg s hs t hc
        rcases List.mem_singleton.mp hg with rfl
        rcases List.mem_singleton.mp hs with rfl
        obtain ⟨⟨hg1, _⟩, _, hs2⟩ := hc
        simp only [RangeV.End] at hg1 hs2
        omega
  | cons y l' ih =>
    intro x pEnd hx hsep hEnds
    rw [sepChain_cons] at hsep
    obtain ⟨h1, h2, h3⟩ := hsep
    have hEnds' : ∀ s ∈ y :: l', s.End ≤ pEnd := fun s hs => hEnds s (by simp [hs])
    obtain ⟨IH1, IH2, IH3⟩ := ih y pEnd h2 h3 hEnds'
    have hgl : (y :: l').getLastD x = l'.getLastD y := List.getLastD_cons x y l'
    rw [hgl, flipGaps_cons, List.cons_append]
    have hyEnd : y.st ≤ y.End := by simp only [RangeV.End]; omega
    have hyP : y.End ≤ pEnd := hEnds y (by simp)
    refine ⟨?_, ?_, ?_⟩
    · intro g hg
      rcases List.mem_cons.mp hg with rfl | hmem
      · refine ⟨le_rfl, (by omega : (0 : Int) ≤ y.st - x.End), ?_⟩
        show x.End + (y.st - x.End) ≤ pEnd
        omega
      · obtain ⟨hg1, hg2, hg3⟩ := IH1 g hmem
        exact ⟨by omega, hg2, hg3⟩
    · rw [List.chain'_cons']
      refine ⟨?_, IH2⟩
      intro z hz
      have hzmem : z ∈ flipGaps (y :: l') ++
          (if pEnd = (l'.getLastD y).End then ([] : List RangeV)
           else [(⟨(l'.getLastD y).End, pEnd - (l'.getLastD y).End⟩ : RangeV)]) :=
        List.mem_of_mem_head? hz
      obtain ⟨hz1, _, _⟩ := IH1 z hzmem
      show x.End < z.st
      omega
    · intro g hg s hs t hc
      obtain ⟨⟨hgc1, hgc2⟩, hsc1, hsc2⟩ := hc
      rcases List.mem_cons.mp hg with rfl | hgmem
      · simp only [RangeV.End] at hgc1 hgc2
        rcases List.mem_cons.mp hs with rfl | hsmem
        · simp only [RangeV.End] at hsc2
          omega
        · rcases List.mem_cons.mp hsmem with rfl | hsmem'
          · omega
          · have := sepChain_mem (y.End + 1) l' h3 s hsmem'
            omega
      · rcases List.mem_cons.mp hs with rfl | hsmem
        · obtain ⟨hg1, _, _⟩ := IH1 g hgmem
          omega
        · exact IH3 g hgmem s hsmem t ⟨⟨hgc1, hgc2⟩, hsc1, hsc2⟩

/-- flipValidRanges over a separated chain contained in the period emits only
gaps with non-negative duration lying within the period, strictly sorted by
start, sharing no instant with any sub-range. -/
theorem flip_props (p : RangeV) (m : List RangeV) (lo : Int)
    (hsep : SepChain lo m)
    (hcont : ∀ s ∈ m, p.st ≤ s.st ∧ s.End ≤ p.End) :
    (∀ g ∈ p.flipValidRanges m, 0 ≤ g.dur ∧ p.st ≤ g.st ∧ g.End ≤ p.End) ∧
    List.Chain' (fun a b => a.st < b.st) (p.flipValidRanges m) ∧
    (∀ g ∈ p.flipValidRanges m, ∀ s ∈ m, ∀ t : Int, ¬(coversR g t ∧ coversR s t)) := by
  cases m with
  | nil =>
    refine ⟨?_, ?_, ?_⟩ <;> simp [RangeV.flipValidRanges]
  | cons first rest =>
    rw [sepChain_cons] at hsep
    obtain ⟨hlo1, hfd, hrest⟩ := hsep
    have hEnds : ∀ s ∈ first :: rest, s.End ≤ p.End := fun s hs => (hcont s hs).2
    obtain ⟨F1, F2, F3⟩ := flip_tail_facts rest first p.End hfd hrest hEnds
    have hfc := hcont first (by simp)
    have hfe : first.st ≤ first.End := by simp only [RangeV.End]; omega
    have hshape : p.flipValidRanges (first :: rest) =
        (if p.st = first.st then ([] : List RangeV)
          else [(⟨p.st, first.st - p.st⟩ : RangeV)]) ++
          (flipGaps (first :: rest) ++
            (if p.End = (rest.getLastD first).End then ([] : List RangeV)
             else [(⟨(rest.getLastD first).End,
               p.End - (rest.getLastD first).End⟩ : RangeV)])) := rfl
    rw [hshape]
    by_cases hlead : p.st = first.st
    · rw [if_pos hlead, List.nil_append]
      refine ⟨?_, F2, F3⟩
      intro g hg
      obtain ⟨hg1, hg2, hg3⟩ := F1 g hg
      exact ⟨hg2, by omega, hg3⟩
    · rw [if_neg hlead, List.singleton_append]
      refine ⟨?_, ?_, ?_⟩
      · intro g hg
        rcases List.mem_cons.mp hg with rfl | hmem
        · refine ⟨(by omega : (0 : Int) ≤ first.st - p.st), le_rfl, ?_⟩
          show p.st + (first.st - p.st) ≤ p.End
          omega
        · obtain ⟨hg1, hg2, hg3⟩ := F1 g hmem
          exact ⟨hg2, by omega, hg3⟩
      · rw [List.chain'_cons']
        refine ⟨?_, F2⟩
        intro z hz
        obtain ⟨hz1, _, _⟩ := F1 z (List.mem_of_mem_head? hz)
        show p.st < z.st
        omega
      · intro g hg s hs t hc
        rcases List.mem_cons.mp hg with rfl | hmem
        · obtain ⟨⟨hc1, hc2⟩, hc3, hc4⟩ := hc
          have hs2 : first.st ≤ s.st := by
            rcases List.mem_cons.mp hs with rfl | hsm
            · exact le_rfl
            · have := sepChain_mem (first.End + 1) rest hrest s hsm
              omega
          simp only [RangeV.End] at hc2
          omega
        · exact F3 g hmem s hs t hc

/-- C9: when every merged sub-range lies within the period, every range
FlipDateRanges returns has non-negative duration, lies within the period, and
the gaps are sorted ascending by start and disjoint from the merged
sub-ranges; without the containment precondition the output can contain a
range with negative stored duration. -/
theorem flip_within_period :
    (∀ (p : RangeV) (ranges : List RangeV), 0 ≤ p.dur → (∀ r ∈ ranges, 0 ≤ r.dur) →
      (∀ s ∈ MergeOverlappingRanges ranges, p.st ≤ s.st ∧ s.End ≤ p.End) →
      (∀ g ∈ p.FlipDateRanges ranges, 0 ≤ g.dur ∧ p.st ≤ g.st ∧ g.End ≤ p.End) ∧
      List.Chain' (fun a b => a.st < b.st) (p.FlipDateRanges ranges) ∧
      (∀ g ∈ p.FlipDateRanges ranges, ∀ s ∈ MergeOverlappingRanges ranges, ∀ t : Int,
        ¬(coversR g t ∧ coversR s t))) ∧
    ((⟨20, -10⟩ : RangeV) ∈ RangeV.FlipDateRanges ⟨0, 10⟩ [⟨0, 20⟩] ∧
      (⟨20, -10⟩ : RangeV).dur < 0) := by
  constructor
  · intro p ranges hp hr hcont
    cases ranges with
    | nil =>
      have hm : MergeOverlappingRanges ([] : List RangeV) = [] := rfl
      have hf : p.FlipDateRanges [] = [p] := rfl
      rw [hf, hm]
      refine ⟨?_, by simp, by simp⟩
      intro g hg
      rcases List.mem_singleton.mp hg with rfl
      exact ⟨hp, le_rfl, le_rfl⟩
    | cons r rest =>
      obtain ⟨⟨lo, hsep⟩, _, _⟩ := merge_master (r :: rest) hr
      have hflip : p.FlipDateRanges (r :: rest) =
          p.flipValidRanges (MergeOverlappingRanges (r :: rest)) := rfl
      rw [hflip]
      exact flip_props p (MergeOverlappingRanges (r :: rest)) lo hsep hcont
  · exact ⟨by decide, by decide⟩

/-- Witness for the containment half of flip_within_period. -/
theorem flip_within_period_w :
    (∀ g ∈ (⟨0, 10⟩ : RangeV).FlipDateRanges [⟨2, 2⟩, ⟨6, 1⟩],
        0 ≤ g.dur ∧ (⟨0, 10⟩ : RangeV).st ≤ g.st ∧ g.End ≤ RangeV.End ⟨0, 10⟩) ∧
    List.Chain' (fun a b => a.st < b.st)
      ((⟨0, 10⟩ : RangeV).FlipDateRanges [⟨2, 2⟩, ⟨6, 1⟩]) ∧
    (∀ g ∈ (⟨0, 10⟩ : RangeV).FlipDateRanges [⟨2, 2⟩, ⟨6, 1⟩],
      ∀ s ∈ MergeOverlappingRanges [⟨2, 2⟩, ⟨6, 1⟩], ∀ t : Int,
        ¬(coversR g t ∧ coversR s t)) :=
  flip_within_period.1 ⟨0, 10⟩ [⟨2, 2⟩, ⟨6, 1⟩] (by norm_num) (by decide) (by decide)
